import Mathlib

/-!
Verification of the peer-session core of the `torrent` BitTorrent client.

Bytes are modelled as `Nat` values (each `< 256` where it matters), byte
buffers as `List Nat`, and 32-bit machine words as `Nat` reduced modulo
`2 ^ 32` wherever the Rust code performs `u32` arithmetic.  Every
definition is a direct shallow embedding of the corresponding Rust item;
the source file and symbol are named in each doc comment.
-/

/-- Big-endian encoding of a `u32` value into four bytes, as produced by
`BufMut::put_u32` / `u32::to_be_bytes` (`bytes` crate). -/
def toBE32 (n : Nat) : List Nat :=
  let v := n % 2 ^ 32
  [v / 16777216, v / 65536 % 256, v / 256 % 256, v % 256]

/-- Big-endian decoding of four bytes into a `u32` value, as done by
`u32::from_be_bytes` / `Buf::get_u32` (`bytes` crate).  Missing bytes
read as zero; every call site in the embedded code is bounds-guarded
exactly as the Rust code is. -/
def fromBE32 (bs : List Nat) : Nat :=
  bs.getD 0 0 * 16777216 + bs.getD 1 0 * 65536 + bs.getD 2 0 * 256 + bs.getD 3 0

/-- Big-endian encoding of a 64-bit value into eight bytes (used by the
SHA-1 length padding). -/
def toBE64 (n : Nat) : List Nat :=
  let v := n % 2 ^ 64
  [v / 2 ^ 56 % 256, v / 2 ^ 48 % 256, v / 2 ^ 40 % 256, v / 2 ^ 32 % 256,
   v / 2 ^ 24 % 256, v / 2 ^ 16 % 256, v / 2 ^ 8 % 256, v % 256]

/-- Left rotation of a 32-bit word. -/
def rotl32 (k n : Nat) : Nat :=
  ((n <<< k) ||| (n >>> (32 - k))) % 2 ^ 32

/-- SHA-1 padding: append `0x80`, zero bytes up to 56 mod 64, then the
message bit length as a big-endian 64-bit value (FIPS 180-4, as
implemented by the `sha1` crate used in `src/queues.rs`). -/
def sha1Pad (msg : List Nat) : List Nat :=
  let mlen := msg.length
  let zeros := (64 + 56 - (mlen + 1) % 64) % 64
  msg ++ [128] ++ List.replicate zeros 0 ++ toBE64 (mlen * 8)

/-- Split a byte list into 64-byte chunks (fuel-indexed; the fuel passed
is always sufficient). -/
def chunk64 : Nat → List Nat → List (List Nat)
  | 0, _ => []
  | f + 1, l => if l.isEmpty then [] else l.take 64 :: chunk64 f (l.drop 64)

/-- Group a 64-byte chunk into sixteen big-endian 32-bit words. -/
def toWords : List Nat → List Nat
  | a :: b :: c :: d :: rest => (a * 16777216 + b * 65536 + c * 256 + d) :: toWords rest
  | _ => []

/-- Extend sixteen message-schedule words to eighty
(`w[i] = rotl1 (w[i-3] xor w[i-8] xor w[i-14] xor w[i-16])`). -/
def sha1Extend : Nat → List Nat → List Nat
  | 0, ws => ws
  | f + 1, ws =>
    let i := ws.length
    let x := rotl32 1 ((ws.getD (i - 3) 0 ^^^ ws.getD (i - 8) 0) ^^^
      (ws.getD (i - 14) 0 ^^^ ws.getD (i - 16) 0))
    sha1Extend f (ws ++ [x])

/-- One SHA-1 compression round.  The state is `(a, b, c, d, e)`. -/
def sha1Round (i : Nat) (st : Nat × Nat × Nat × Nat × Nat) (wi : Nat) :
    Nat × Nat × Nat × Nat × Nat :=
  let (a, b, c, d, e) := st
  let fk : Nat × Nat :=
    if i < 20 then ((b &&& c) ||| ((b ^^^ 4294967295) &&& d), 1518500249)
    else if i < 40 then ((b ^^^ c) ^^^ d, 1859775393)
    else if i < 60 then (((b &&& c) ||| (b &&& d)) ||| (c &&& d), 2400959708)
    else ((b ^^^ c) ^^^ d, 3395469782)
  let temp := (rotl32 5 a + fk.1 + e + fk.2 + wi) % 2 ^ 32
  (temp, a, rotl32 30 b, c, d)

/-- Process one 64-byte chunk against the running hash state. -/
def sha1Chunk (hs : Nat × Nat × Nat × Nat × Nat) (chunk : List Nat) :
    Nat × Nat × Nat × Nat × Nat :=
  let ws := sha1Extend 64 (toWords chunk)
  let (h0, h1, h2, h3, h4) := hs
  let (a, b, c, d, e) :=
    (List.zip (List.range 80) ws).foldl (fun st p => sha1Round p.1 st p.2)
      (h0, h1, h2, h3, h4)
  ((h0 + a) % 2 ^ 32, (h1 + b) % 2 ^ 32, (h2 + c) % 2 ^ 32,
   (h3 + d) % 2 ^ 32, (h4 + e) % 2 ^ 32)

/-- SHA-1 digest of a byte list, as computed by `Sha1::digest` of the
`sha1` crate (`src/queues.rs` dependency): twenty bytes. -/
def sha1 (msg : List Nat) : List Nat :=
  let padded := sha1Pad msg
  let (h0, h1, h2, h3, h4) :=
    (chunk64 (padded.length) padded).foldl sha1Chunk
      (1732584193, 4023233417, 2562383102, 271733878, 3285377520)
  toBE32 h0 ++ toBE32 h1 ++ toBE32 h2 ++ toBE32 h3 ++ toBE32 h4

set_option maxRecDepth 10000

/-- Sanity anchor: the model computes the standard SHA-1 digest of the
empty message. -/
theorem sha1_nil_eq :
    sha1 [] = [218, 57, 163, 238, 94, 107, 75, 13, 50, 85, 191, 239,
      149, 96, 24, 144, 175, 216, 7, 9] := by decide

/-- Sanity anchor: the model computes the standard SHA-1 digest of the
ASCII string `abc`. -/
theorem sha1_abc_eq :
    sha1 [97, 98, 99] = [169, 153, 62, 54, 71, 6, 129, 106, 186, 62, 37,
      113, 120, 80, 194, 108, 156, 208, 216, 157] := by decide

/-! ## Bitfield view (`src/bitfield.rs`)

The `Bitfield` / `BitfieldMut` trait impls for `&[u8]`, `&mut [u8]` and
`[u8; N]` share the same bodies; they are embedded once over `List Nat`.
Rust slice indexing `self[byte_idx]` panics when the index is out of
range; a panic is modelled as `none`. -/

/-- Embeds `Bitfield::has_piece` (`src/bitfield.rs:12-16`):
`self[index / 8] >> (7 - index % 8) & 1 != 0`, `none` when the byte
index is out of range (Rust index panic). -/
def has_piece (b : List Nat) (index : Nat) : Option Bool :=
  let byte_idx := index / 8
  let offset := index % 8
  match b.get? byte_idx with
  | none => none
  | some byte => some (decide (byte >>> (7 - offset) &&& 1 ≠ 0))

/-- Embeds `BitfieldMut::set_piece` (`src/bitfield.rs:28-33`):
`self[index / 8] |= 1 << (7 - index % 8)`, `none` on index panic. -/
def set_piece (b : List Nat) (index : Nat) : Option (List Nat) :=
  let byte_idx := index / 8
  let offset := index % 8
  match b.get? byte_idx with
  | none => none
  | some byte => some (b.set byte_idx (byte ||| 1 <<< (7 - offset)))

/-- Embeds `BitfieldMut::unset_piece` (`src/bitfield.rs:35-40`):
`self[index / 8] &= 0 << (7 - index % 8)`, `none` on index panic.  The
mask expression is kept exactly as written in the source. -/
def unset_piece (b : List Nat) (index : Nat) : Option (List Nat) :=
  let byte_idx := index / 8
  let offset := index % 8
  match b.get? byte_idx with
  | none => none
  | some byte => some (b.set byte_idx (byte &&& 0 <<< (7 - offset)))

/-! ## Work queue items (`src/queues.rs`) -/

/-- Embeds `PieceOfWork` (`src/queues.rs:4-9`). -/
structure PieceOfWork where
  idx : Nat
  hash : List Nat
  length : Nat
deriving DecidableEq, Repr

/-- Embeds `PieceOfWork::verify_buf` (`src/queues.rs:11-17`): compares
`Sha1::digest(buf)` against `self.hash`.  The buffer length is not
consulted. -/
def PieceOfWork.verify_buf (w : PieceOfWork) (buf : List Nat) : Bool :=
  let digest := sha1 buf
  w.hash == digest

/-- Embeds `WorkResult` (`src/queues.rs:19-23`). -/
structure WorkResult where
  idx : Nat
  bytes : List Nat
deriving DecidableEq, Repr

/-! ## Handshake codec (`src/peer/handshake.rs`)

A frame is modelled as a `List Nat` of bytes; the decoder returns
`Except String (Option (Handshake × List Nat))`: `Except.error` for the
`Err` return, `Option.none` for `Ok(None)` ("need more"), and on success
the parsed frame together with the bytes left in the buffer. -/

/-- Embeds `PROTOCOL_NAME` (`src/peer/handshake.rs:5`): the ASCII bytes of
`BitTorrent protocol`. -/
def PROTOCOL_NAME : List Nat :=
  [66, 105, 116, 84, 111, 114, 114, 101, 110, 116, 32, 112, 114, 111,
   116, 111, 99, 111, 108]

/-- Embeds `Handshake` (`src/peer/handshake.rs:8-13`). -/
structure Handshake where
  info_hash : List Nat
  peer_id : List Nat
  protocol_name : List Nat
  reserved : List Nat
deriving DecidableEq, Repr

/-- Embeds `Handshake::new` (`src/peer/handshake.rs:19-26`). -/
def Handshake.new (info_hash peer_id : List Nat) : Handshake :=
  { info_hash := info_hash, peer_id := peer_id,
    protocol_name := PROTOCOL_NAME, reserved := List.replicate 8 0 }

namespace HandshakeCodec

/-- Embeds `Encoder<Handshake> for HandshakeCodec` (`src/peer/handshake.rs:29-41`):
length byte of the protocol name, the name, eight literal zero bytes
(the `reserved` field is not consulted), info hash, peer id. -/
def encode (item : Handshake) : List Nat :=
  [item.protocol_name.length] ++ item.protocol_name ++
    List.replicate 8 0 ++ item.info_hash ++ item.peer_id

/-- Embeds `Decoder for HandshakeCodec` (`src/peer/handshake.rs:43-90`):
empty buffer yields need-more; a first byte other than 19 is an error;
the frame is consumed only when `src.remaining() > payload_len` with
`payload_len = 19 + 8 + 20 + 20 = 67`. -/
def decode (src : List Nat) : Except String (Option (Handshake × List Nat)) :=
  match src with
  | [] => Except.ok none
  | b :: rest =>
    if b ≠ PROTOCOL_NAME.length then
      Except.error "Handshake must have the string BitTorrent protocol"
    else if src.length > PROTOCOL_NAME.length + 8 + 20 + 20 then
      let protocol_name := rest.take 19
      let r1 := rest.drop 19
      let reserved := r1.take 8
      let r2 := r1.drop 8
      let info_hash := r2.take 20
      let r3 := r2.drop 20
      let peer_id := r3.take 20
      let r4 := r3.drop 20
      let h : Handshake :=
        { info_hash := info_hash, peer_id := peer_id,
          protocol_name := protocol_name, reserved := reserved }
      Except.ok (some (h, r4))
    else
      Except.ok none

end HandshakeCodec

/-! ## Peer messages

`src/peer/message.rs` and `src/peer/peermessage.rs` declare textually
identical `PeerMessage` enums; one inductive serves both.  Their codecs
differ and are embedded separately below. -/

/-- Embeds `PeerMessage` (`src/peer/message.rs:6-17` and
`src/peer/peermessage.rs:5-16`).  `u32` fields are `Nat` values below
`2 ^ 32`. -/
inductive PeerMessage where
  | KeepAlive
  | Choke
  | Unchoke
  | Interested
  | NotInterested
  | Have (idx : Nat)
  | Bitfield (p : List Nat)
  | Request (idx begin_ length : Nat)
  | Piece (idx offset : Nat) (data : List Nat)
  | Cancel (idx begin_ length : Nat)
deriving DecidableEq, Repr

/-- Embeds `PeerMessage::payload_len` (`src/peer/message.rs:50-64`). -/
def PeerMessage.payload_len : PeerMessage → Nat
  | .Choke | .Unchoke | .Interested | .NotInterested | .KeepAlive => 0
  | .Have _ => 4
  | .Bitfield p => p.length
  | .Request _ _ _ => 12
  | .Piece _ _ p => 8 + p.length
  | .Cancel _ _ _ => 12

/-- Embeds `PeerMessage::message_id` (`src/peer/message.rs:65-81`). -/
def PeerMessage.message_id : PeerMessage → Option Nat
  | .KeepAlive => none
  | .Choke => some 0
  | .Unchoke => some 1
  | .Interested => some 2
  | .NotInterested => some 3
  | .Have _ => some 4
  | .Bitfield _ => some 5
  | .Request _ _ _ => some 6
  | .Piece _ _ _ => some 7
  | .Cancel _ _ _ => some 8

namespace message

/-- Embeds `Encoder<PeerMessage> for PeerMessageCodec` (`src/peer/message.rs:86-129`):
big-endian `u32` length prefix, one id byte (omitted for `KeepAlive`,
whose length prefix is 0), then the payload.  Lengths pass through
`as u32`, hence the `% 2 ^ 32` inside `toBE32`. -/
def encode (item : PeerMessage) : List Nat :=
  match item with
  | .KeepAlive => toBE32 0
  | .Choke => toBE32 1 ++ [0]
  | .Unchoke => toBE32 1 ++ [1]
  | .Interested => toBE32 1 ++ [2]
  | .NotInterested => toBE32 1 ++ [3]
  | .Have p => toBE32 (1 + 4) ++ [4] ++ toBE32 p
  | .Bitfield p => toBE32 (1 + p.length) ++ [5] ++ p
  | .Piece idx offset data =>
    toBE32 (1 + 4 + 4 + data.length) ++ [7] ++ toBE32 idx ++ toBE32 offset ++ data
  | .Request idx begin_ length =>
    toBE32 (1 + 4 + 4 + 4) ++ [6] ++ toBE32 idx ++ toBE32 begin_ ++ toBE32 length
  | .Cancel idx begin_ length =>
    toBE32 (1 + 4 + 4 + 4) ++ [8] ++ toBE32 idx ++ toBE32 begin_ ++ toBE32 length

/-- Shared payload dispatch of the two decoders: after the length prefix
has been consumed, read the id byte and the payload
(`src/peer/message.rs:159-204`, identical in
`src/peer/peermessage.rs:145-189`).  `rest` is the buffer after the
four-byte prefix; the guards of the callers ensure every read is in
bounds. -/
def decodeBody (message_length : Nat) (rest : List Nat) :
    Except String (Option (PeerMessage × List Nat)) :=
  let message_id := rest.getD 0 0
  let r := rest.drop 1
  match message_id with
  | 0 => Except.ok (some (.Choke, r))
  | 1 => Except.ok (some (.Unchoke, r))
  | 2 => Except.ok (some (.Interested, r))
  | 3 => Except.ok (some (.NotInterested, r))
  | 4 => Except.ok (some (.Have (fromBE32 (r.take 4)), r.drop 4))
  | 5 => Except.ok (some (.Bitfield (r.take (message_length - 1)),
      r.drop (message_length - 1)))
  | 6 => Except.ok (some (.Request (fromBE32 (r.take 4))
      (fromBE32 ((r.drop 4).take 4)) (fromBE32 ((r.drop 8).take 4)), r.drop 12))
  | 7 => Except.ok (some (.Piece (fromBE32 (r.take 4))
      (fromBE32 ((r.drop 4).take 4)) ((r.drop 8).take (message_length - 9)),
      (r.drop 8).drop (message_length - 9)))
  | 8 => Except.ok (some (.Cancel (fromBE32 (r.take 4))
      (fromBE32 ((r.drop 4).take 4)) (fromBE32 ((r.drop 8).take 4)), r.drop 12))
  | _ => Except.error "Invalid message ID"

/-- Embeds `Decoder for PeerMessageCodec` (`src/peer/message.rs:131-205`):
need-more below four buffered bytes; the frame is consumed when
`src.remaining() >= message_length + 4`; a zero length yields
`KeepAlive`. -/
def decode (src : List Nat) : Except String (Option (PeerMessage × List Nat)) :=
  if src.length < 4 then Except.ok none
  else
    let message_length := fromBE32 (src.take 4)
    if src.length ≥ message_length + 4 then
      if message_length = 0 then Except.ok (some (.KeepAlive, src.drop 4))
      else decodeBody message_length (src.drop 4)
    else Except.ok none

end message

namespace peermessage

/-- Embeds `Encoder<PeerMessage> for PeerMessageCodec`
(`src/peer/peermessage.rs:85-117`): the payload is built first, then the
prefix, id and payload are written — but only when `message_id` is
`Some`, so `KeepAlive` writes nothing at all. -/
def encode (item : PeerMessage) : List Nat :=
  let payload : List Nat :=
    match item with
    | .KeepAlive | .Choke | .Unchoke | .Interested | .NotInterested => []
    | .Have p => toBE32 p
    | .Bitfield p => p
    | .Piece idx offset data => toBE32 idx ++ toBE32 offset ++ data
    | .Request idx begin_ length => toBE32 idx ++ toBE32 begin_ ++ toBE32 length
    | .Cancel idx begin_ length => toBE32 idx ++ toBE32 begin_ ++ toBE32 length
  match item.message_id with
  | some id => toBE32 (payload.length + 1) ++ [id] ++ payload
  | none => []

/-- Embeds `Decoder for PeerMessageCodec` (`src/peer/peermessage.rs:119-191`):
identical to `message.decode` except that the frame is consumed only
when `src.remaining() > message_length + 4` — strict inequality. -/
def decode (src : List Nat) : Except String (Option (PeerMessage × List Nat)) :=
  if src.length < 4 then Except.ok none
  else
    let message_length := fromBE32 (src.take 4)
    if src.length > message_length + 4 then
      if message_length = 0 then Except.ok (some (.KeepAlive, src.drop 4))
      else message.decodeBody message_length (src.drop 4)
    else Except.ok none

end peermessage

/-! ## Peer session (`src/peer/session.rs`)

The session's network effects are modelled explicitly: incoming traffic
is a `List PeerMessage` consumed in order (a `tokio` stream), outgoing
`Request` messages are collected as `(begin, size)` pairs, and the two
channels are plain lists (`async_channel` is FIFO).  Loops are embedded
as fuel-indexed recursions; the fuel of the inner request loop is exact
(the loop body increments `backlog`, bounded by `MAX_BACKLOG`), and the
fuel of the message-driven loops is sufficient whenever it exceeds the
number of messages left, since every iteration consumes at least one
message.  A Rust panic (out-of-range slice index, `usize` underflow of
`backlog -= 1` under overflow checks) ends the session abnormally and is
a distinguished outcome. -/

/-- Embeds `MAX_BLOCK_SIZE` (`src/peer/session.rs:23`). -/
def MAX_BLOCK_SIZE : Nat := 16384

/-- Embeds `MAX_BACKLOG` (`src/peer/session.rs:24`). -/
def MAX_BACKLOG : Nat := 5

/-- Embeds `PieceState` (`src/peer/session.rs:26-32`). -/
structure PieceState where
  index : Nat
  downloaded : Nat
  requested : Nat
  backlog : Nat
  buf : List Nat
deriving DecidableEq, Repr

/-- Embeds `PieceState::new` (`src/peer/session.rs:45-55`): counters zero, a
zero-filled buffer of the piece length. -/
def PieceState.new (index len : Nat) : PieceState :=
  { index := index, downloaded := 0, requested := 0, backlog := 0,
    buf := List.replicate len 0 }

/-- Embeds `PeerSessionState` (`src/peer/session.rs:57-66`); only `choked` and
`bitfield` are read or written by the embedded code paths, the remaining
fields ride along as in the source. -/
structure PeerSessionState where
  index : Nat
  choked : Bool
  interested : Bool
  downloaded : Nat
  requested : Nat
  backlog : Nat
  buf : List Nat
  bitfield : List Nat
deriving DecidableEq, Repr

/-- Embeds `Default for PeerSessionState` (`src/peer/session.rs:83-96`). -/
def PeerSessionState.default : PeerSessionState :=
  { index := 0, choked := true, interested := false, downloaded := 0,
    requested := 0, backlog := 0, buf := [], bitfield := [] }

/-- Outcome of one `read_message` dispatch: normal return, an
`Err(anyhow!(..))` early return (state untouched, since the three checks
precede every mutation), or a Rust panic. -/
inductive RmOut where
  | ok (sst : PeerSessionState) (pst : PieceState)
  | err (reason : String) (sst : PeerSessionState) (pst : PieceState)
  | panicked (sst : PeerSessionState) (pst : PieceState)
deriving DecidableEq, Repr

/-- The dispatch of `PeerSession::read_message` on one received message
(`src/peer/session.rs:234-270`).  `Have` calls `set_piece`, which panics
when the byte index is out of range; `Piece` checks index and bounds,
then splices the data into `buf[offset .. offset + len]`, adds to
`downloaded` and decrements `backlog` (`usize` underflow when the
backlog is zero is a panic, the state at that instant recorded). -/
def readMessageStep (sst : PeerSessionState) (pst : PieceState)
    (msg : PeerMessage) : RmOut :=
  match msg with
  | .Choke => RmOut.ok { sst with choked := true } pst
  | .Unchoke => RmOut.ok { sst with choked := false } pst
  | .Have idx =>
    match set_piece sst.bitfield idx with
    | some bf => RmOut.ok { sst with bitfield := bf } pst
    | none => RmOut.panicked sst pst
  | .Bitfield field => RmOut.ok { sst with bitfield := field } pst
  | .Request _ _ _ => RmOut.ok sst pst
  | .Piece idx offset data =>
    if idx ≠ pst.index then
      RmOut.err "Incorrect piece index" sst pst
    else if offset > pst.buf.length then
      RmOut.err "Piece offset longer than buffer" sst pst
    else if offset + data.length > pst.buf.length then
      RmOut.err "Data too long for piece" sst pst
    else
      let buf' := pst.buf.take offset ++ data ++ pst.buf.drop (offset + data.length)
      let pst' :=
        { pst with buf := buf', downloaded := pst.downloaded + data.length }
      if pst.backlog = 0 then RmOut.panicked sst pst'
      else RmOut.ok sst { pst' with backlog := pst.backlog - 1 }
  | _ => RmOut.ok sst pst

/-- Embeds `PeerSession::recv_message` (`src/peer/session.rs:207-230`): skip
`KeepAlive` frames and deliver the next message; an exhausted stream is
the 30-second timeout (an error return). -/
def recvMessage : List PeerMessage → Option (PeerMessage × List PeerMessage)
  | [] => none
  | PeerMessage.KeepAlive :: rest => recvMessage rest
  | m :: rest => some (m, rest)

/-- The request-pipelining inner loop of `PeerSession::attempt_download`
(`src/peer/session.rs:330-341`): while `backlog < MAX_BACKLOG` and
`requested < len`, send `Request(idx, requested, block)` with
`block = min(MAX_BLOCK_SIZE, len - requested)` and bump the counters.
The fuel `MAX_BACKLOG - backlog` is exact: each iteration increments
`backlog`, so the guard fails no later than the fuel runs out. -/
def fillGo : Nat → Nat → PieceState → List (Nat × Nat) × PieceState
  | 0, _, pst => ([], pst)
  | f + 1, len, pst =>
    if pst.backlog < MAX_BACKLOG ∧ pst.requested < len then
      let block := if len - pst.requested < MAX_BLOCK_SIZE then
        len - pst.requested else MAX_BLOCK_SIZE
      let next := fillGo f len
        { pst with backlog := pst.backlog + 1, requested := pst.requested + block }
      ((pst.requested, block) :: next.1, next.2)
    else ([], pst)

/-- The inner request loop entered with its exact fuel. -/
def fillRequests (len : Nat) (pst : PieceState) : List (Nat × Nat) × PieceState :=
  fillGo (MAX_BACKLOG - pst.backlog) len pst

/-- One run of `PeerSession::attempt_download` (`src/peer/session.rs:321-348`),
fuel-indexed: while `downloaded < len`, fill the request pipeline when
not choked, then block on `read_message`.  Returns the final
`PieceState` (the source returns its `buf`), the session state, the
unconsumed traffic and the `(begin, size)` pairs of every `Request`
sent; `none` is any abnormal exit (timeout, error return, panic, or
exhausted fuel — unreachable when the fuel exceeds the traffic length). -/
def dlGo : Nat → PieceOfWork → PeerSessionState → PieceState →
    List PeerMessage →
    Option (PieceState × PeerSessionState × List PeerMessage × List (Nat × Nat))
  | 0, _, _, _, _ => none
  | fuel + 1, w, sst, pst, msgs =>
    if pst.downloaded < w.length then
      let filled := if sst.choked then ([], pst) else fillRequests w.length pst
      match recvMessage msgs with
      | none => none
      | some (m, rest) =>
        match readMessageStep sst filled.2 m with
        | RmOut.ok sst' pst' =>
          match dlGo fuel w sst' pst' rest with
          | none => none
          | some (pstF, sstF, msgsF, reqsF) =>
            some (pstF, sstF, msgsF, filled.1 ++ reqsF)
        | _ => none
    else some (pst, sst, msgs, [])

/-- Embeds `attempt_download` with sufficient fuel (each loop iteration consumes
at least one incoming message). -/
def attemptDownload (w : PieceOfWork) (sst : PeerSessionState)
    (msgs : List PeerMessage) :
    Option (PieceState × PeerSessionState × List PeerMessage × List (Nat × Nat)) :=
  dlGo (msgs.length + 1) w sst (PieceState.new w.idx w.length) msgs

/-- The download loop of `PeerSession::start_download`
(`src/peer/session.rs:277-300`), fuel-indexed.  The work queue is a FIFO
list: `pop` takes the head, an empty list is the closed channel ending
the loop cleanly, `push` appends at the tail.  Returns the `WorkResult`
values sent on the result sink, in order, paired with `true` for the
clean `Ok(())` exit and `false` for an abnormal one (error propagation
through `?`, panic, or exhausted fuel).  The initial `Unchoke` and
`Interested` sends (`src/peer/session.rs:274-275`) touch no modelled
state. -/
def sdGo : Nat → PeerSessionState → List PieceOfWork → List PeerMessage →
    List WorkResult × Bool
  | 0, _, _, _ => ([], false)
  | fuel + 1, sst, queue, msgs =>
    match queue with
    | [] => ([], true)
    | w :: q =>
      match has_piece sst.bitfield w.idx with
      | none => ([], false)
      | some false => sdGo fuel sst (q ++ [w]) msgs
      | some true =>
        match attemptDownload w sst msgs with
        | none => ([], false)
        | some (pstF, sst', msgs', _) =>
          if w.verify_buf pstF.buf then
            let rec_ := sdGo fuel sst' q msgs'
            ({ idx := w.idx, bytes := pstF.buf } :: rec_.1, rec_.2)
          else
            sdGo fuel sst' (q ++ [w]) msgs'

/-- Modelled from the spec: the canonical block-request schedule of a
piece of length `len` — starting at `r`, each entry is
`(r, min(MAX_BLOCK_SIZE, len - r))` and advances `r` by its block size
(spec §4.7/§8, block splitting).  The fuel `len` is sufficient because
every entry advances `r` by at least one. -/
def specScheduleGo : Nat → Nat → Nat → List (Nat × Nat)
  | 0, _, _ => []
  | f + 1, len, r =>
    if r < len then
      let block := if len - r < MAX_BLOCK_SIZE then len - r else MAX_BLOCK_SIZE
      (r, block) :: specScheduleGo f len (r + block)
    else []

/-- Modelled from the spec: the full request schedule of a piece,
starting at offset zero. -/
def specSchedule (len : Nat) : List (Nat × Nat) :=
  specScheduleGo len len 0

/-! ## Helper lemmas -/

theorem fromBE32_toBE32 (n : Nat) : fromBE32 (toBE32 n) = n % 2 ^ 32 := by
  simp only [toBE32, fromBE32, List.getD, List.get?, Option.getD_some]
  omega

theorem toBE32_length (n : Nat) : (toBE32 n).length = 4 := rfl

theorem MAX_BLOCK_SIZE_eq : MAX_BLOCK_SIZE = 16384 := rfl

theorem MAX_BACKLOG_eq : MAX_BACKLOG = 5 := rfl

/-- The block size chosen by the request loop and the spec schedule is
at least one whenever `r < len`. -/
theorem block_pos (len r : Nat) (hr : r < len) :
    1 ≤ if len - r < MAX_BLOCK_SIZE then len - r else MAX_BLOCK_SIZE := by
  by_cases hc : len - r < MAX_BLOCK_SIZE
  · rw [if_pos hc]
    omega
  · rw [if_neg hc, MAX_BLOCK_SIZE_eq]
    omega

theorem specScheduleGo_congr : ∀ (f f' len r : Nat), len - r ≤ f →
    len - r ≤ f' → specScheduleGo f len r = specScheduleGo f' len r := by
  intro f
  induction f with
  | zero =>
    intro f' len r h _
    have hr : ¬ r < len := by omega
    cases f' with
    | zero => rfl
    | succ g => simp [specScheduleGo, hr]
  | succ g ih =>
    intro f' len r h h'
    by_cases hr : r < len
    · obtain ⟨g', rfl⟩ : ∃ g', f' = g' + 1 := ⟨f' - 1, by omega⟩
      simp only [specScheduleGo, hr, if_pos]
      have hb := block_pos len r hr
      set blk := if len - r < MAX_BLOCK_SIZE then len - r else MAX_BLOCK_SIZE with hblk
      exact congrArg _ (ih g' len (r + blk) (by omega) (by omega))
    · cases f' with
      | zero => simp [specScheduleGo, hr]
      | succ g' => simp [specScheduleGo, hr]

/-- The schedule from offset `r`, with canonical fuel. -/
def schedFrom (len r : Nat) : List (Nat × Nat) :=
  specScheduleGo (len - r) len r

theorem schedFrom_zero (len : Nat) : schedFrom len 0 = specSchedule len := by
  unfold schedFrom specSchedule
  exact specScheduleGo_congr _ _ _ _ (by omega) (by omega)

theorem schedFrom_eq_cons (len r : Nat) (hr : r < len) :
    schedFrom len r =
      (r, if len - r < MAX_BLOCK_SIZE then len - r else MAX_BLOCK_SIZE) ::
        schedFrom len (r + if len - r < MAX_BLOCK_SIZE then len - r else MAX_BLOCK_SIZE) := by
  have hb := block_pos len r hr
  set blk := if len - r < MAX_BLOCK_SIZE then len - r else MAX_BLOCK_SIZE with hblk
  unfold schedFrom
  rw [specScheduleGo_congr (len - r) (len - r - 1 + 1) len r (le_refl _) (by omega)]
  simp only [specScheduleGo, hr, if_pos, ← hblk]
  exact congrArg _ (specScheduleGo_congr _ _ len (r + blk) (by omega) (by omega))

theorem schedFrom_stop (len r : Nat) (hr : ¬ r < len) : schedFrom len r = [] := by
  have h0 : len - r = 0 := by omega
  unfold schedFrom
  rw [h0]
  rfl

/-- The block size the request loop picks at state `pst` (proof helper,
matching the expression inside `fillGo`). -/
def blkOf (len : Nat) (pst : PieceState) : Nat :=
  if len - pst.requested < MAX_BLOCK_SIZE then len - pst.requested
  else MAX_BLOCK_SIZE

/-- The piece state after one request-loop iteration (proof helper,
matching the recursive argument inside `fillGo`). -/
def fillNext (len : Nat) (pst : PieceState) : PieceState :=
  { pst with backlog := pst.backlog + 1, requested := pst.requested + blkOf len pst }

theorem fillGo_succ_pos (g len : Nat) (pst : PieceState)
    (hg : pst.backlog < MAX_BACKLOG ∧ pst.requested < len) :
    fillGo (g + 1) len pst =
      ((pst.requested, blkOf len pst) :: (fillGo g len (fillNext len pst)).1,
       (fillGo g len (fillNext len pst)).2) := by
  simp only [fillGo, blkOf, fillNext]
  rw [if_pos hg]

theorem fillGo_stop (g len : Nat) (pst : PieceState)
    (hg : ¬ (pst.backlog < MAX_BACKLOG ∧ pst.requested < len)) :
    fillGo (g + 1) len pst = ([], pst) := by
  simp only [fillGo, hg, if_neg, ite_false]

theorem fillGo_props : ∀ (f len : Nat) (pst : PieceState),
    (fillGo f len pst).1 ++ schedFrom len (fillGo f len pst).2.requested =
      schedFrom len pst.requested ∧
    (fillGo f len pst).2.backlog = pst.backlog + (fillGo f len pst).1.length ∧
    (fillGo f len pst).2.downloaded = pst.downloaded ∧
    (fillGo f len pst).2.buf = pst.buf ∧
    (fillGo f len pst).2.index = pst.index := by
  intro f
  induction f with
  | zero => intro len pst; simp [fillGo]
  | succ g ih =>
    intro len pst
    by_cases hg : pst.backlog < MAX_BACKLOG ∧ pst.requested < len
    · rw [fillGo_succ_pos g len pst hg]
      obtain ⟨ih1, ih2, ih3, ih4, ih5⟩ := ih len (fillNext len pst)
      have hnext : (fillNext len pst).requested = pst.requested + blkOf len pst := rfl
      refine ⟨?_, ?_, ?_, ?_, ?_⟩
      · have hcons := schedFrom_eq_cons len pst.requested hg.2
        rw [hnext] at ih1
        simp only [List.cons_append, ih1]
        rw [hcons]
        rfl
      · have : (fillNext len pst).backlog = pst.backlog + 1 := rfl
        rw [this] at ih2
        simp only [List.length_cons]
        omega
      · rw [ih3]; rfl
      · rw [ih4]; rfl
      · rw [ih5]; rfl
    · rw [fillGo_stop g len pst hg]
      simp

theorem fillGo_backlog_le : ∀ (f len : Nat) (pst : PieceState),
    pst.backlog ≤ MAX_BACKLOG → (fillGo f len pst).2.backlog ≤ MAX_BACKLOG := by
  intro f
  induction f with
  | zero => intro len pst h; simpa [fillGo] using h
  | succ g ih =>
    intro len pst h
    by_cases hg : pst.backlog < MAX_BACKLOG ∧ pst.requested < len
    · rw [fillGo_succ_pos g len pst hg]
      refine ih len (fillNext len pst) ?_
      have : (fillNext len pst).backlog = pst.backlog + 1 := rfl
      omega
    · rw [fillGo_stop g len pst hg]
      exact h

/-- Length of a spliced write window. -/
theorem splice_length (buf data : List Nat) (offset : Nat)
    (h : offset + data.length ≤ buf.length) :
    (buf.take offset ++ data ++ buf.drop (offset + data.length)).length =
      buf.length := by
  simp only [List.length_append, List.length_take, List.length_drop]
  omega

theorem readMessageStep_ok_invariants (sst : PeerSessionState) (pst : PieceState)
    (m : PeerMessage) (sst' : PeerSessionState) (pst' : PieceState)
    (h : readMessageStep sst pst m = RmOut.ok sst' pst') :
    pst'.buf.length = pst.buf.length ∧ pst'.requested = pst.requested ∧
    pst'.index = pst.index ∧ pst'.backlog ≤ pst.backlog := by
  cases m with
  | Choke => simp only [readMessageStep] at h; cases h; exact ⟨rfl, rfl, rfl, Nat.le_refl _⟩
  | Unchoke => simp only [readMessageStep] at h; cases h; exact ⟨rfl, rfl, rfl, Nat.le_refl _⟩
  | Have idx =>
    cases hsp : set_piece sst.bitfield idx with
    | none => simp only [readMessageStep, hsp] at h; simp at h
    | some bf =>
      simp only [readMessageStep, hsp] at h
      cases h
      exact ⟨rfl, rfl, rfl, Nat.le_refl _⟩
  | Bitfield field =>
    simp only [readMessageStep] at h; cases h; exact ⟨rfl, rfl, rfl, Nat.le_refl _⟩
  | Request idx begin_ length =>
    simp only [readMessageStep] at h; cases h; exact ⟨rfl, rfl, rfl, Nat.le_refl _⟩
  | Cancel idx begin_ length =>
    simp only [readMessageStep] at h; cases h; exact ⟨rfl, rfl, rfl, Nat.le_refl _⟩
  | KeepAlive =>
    simp only [readMessageStep] at h; cases h; exact ⟨rfl, rfl, rfl, Nat.le_refl _⟩
  | Interested =>
    simp only [readMessageStep] at h; cases h; exact ⟨rfl, rfl, rfl, Nat.le_refl _⟩
  | NotInterested =>
    simp only [readMessageStep] at h; cases h; exact ⟨rfl, rfl, rfl, Nat.le_refl _⟩
  | Piece idx offset data =>
    simp only [readMessageStep] at h
    by_cases h1 : idx ≠ pst.index
    · rw [if_pos h1] at h; cases h
    rw [if_neg h1] at h
    by_cases h2 : offset > pst.buf.length
    · rw [if_pos h2] at h; cases h
    rw [if_neg h2] at h
    by_cases h3 : offset + data.length > pst.buf.length
    · rw [if_pos h3] at h; cases h
    rw [if_neg h3] at h
    by_cases h4 : pst.backlog = 0
    · rw [if_pos h4] at h; cases h
    rw [if_neg h4] at h
    cases h
    exact ⟨splice_length pst.buf data offset (by omega), rfl, rfl, Nat.sub_le _ _⟩

theorem fillRequests_eq (len : Nat) (pst : PieceState) :
    fillRequests len pst = fillGo (MAX_BACKLOG - pst.backlog) len pst := rfl

theorem dlGo_some_props : ∀ (fuel : Nat) (w : PieceOfWork)
    (sst : PeerSessionState) (pst : PieceState) (msgs : List PeerMessage)
    (pstF : PieceState) (sstF : PeerSessionState) (msgsF : List PeerMessage)
    (reqs : List (Nat × Nat)),
    dlGo fuel w sst pst msgs = some (pstF, sstF, msgsF, reqs) →
    pstF.buf.length = pst.buf.length ∧
    reqs ++ schedFrom w.length pstF.requested = schedFrom w.length pst.requested ∧
    (pst.backlog ≤ MAX_BACKLOG → pstF.backlog ≤ MAX_BACKLOG) := by
  intro fuel
  induction fuel with
  | zero =>
    intro w sst pst msgs pstF sstF msgsF reqs h
    simp [dlGo] at h
  | succ g ih =>
    intro w sst pst msgs pstF sstF msgsF reqs h
    by_cases hd : pst.downloaded < w.length
    · simp only [dlGo] at h
      rw [if_pos hd] at h
      set F := if sst.choked = true then ([], pst)
        else fillRequests w.length pst with hF
      have hF1 : F.1 ++ schedFrom w.length F.2.requested =
          schedFrom w.length pst.requested := by
        rw [hF]
        by_cases hch : sst.choked = true
        · rw [if_pos hch]; simp
        · rw [if_neg hch, fillRequests_eq]
          exact (fillGo_props _ w.length pst).1
      have hFbuf : F.2.buf = pst.buf := by
        rw [hF]
        by_cases hch : sst.choked = true
        · rw [if_pos hch]
        · rw [if_neg hch, fillRequests_eq]
          exact (fillGo_props _ w.length pst).2.2.2.1
      have hFbg : pst.backlog ≤ MAX_BACKLOG → F.2.backlog ≤ MAX_BACKLOG := by
        intro hb
        rw [hF]
        by_cases hch : sst.choked = true
        · rw [if_pos hch]; exact hb
        · rw [if_neg hch, fillRequests_eq]
          exact fillGo_backlog_le _ w.length pst hb
      cases hrm : recvMessage msgs with
      | none => rw [hrm] at h; simp at h
      | some p =>
        obtain ⟨m, rest⟩ := p
        rw [hrm] at h
        simp only at h
        cases hrd : readMessageStep sst F.2 m with
        | err reason sst1 pst1 => rw [hrd] at h; simp at h
        | panicked sst1 pst1 => rw [hrd] at h; simp at h
        | ok sst' pst' =>
          rw [hrd] at h
          simp only at h
          cases hdl : dlGo g w sst' pst' rest with
          | none => rw [hdl] at h; simp at h
          | some quad =>
            obtain ⟨pF, sF, mF, rF⟩ := quad
            rw [hdl] at h
            simp only [Option.some.injEq, Prod.mk.injEq] at h
            obtain ⟨hpe, hse, hme, hre⟩ := h
            subst hpe
            subst hse
            subst hme
            obtain ⟨ihbuf, ihreq, ihbg⟩ := ih w sst' pst' rest pF sF mF rF hdl
            obtain ⟨rmbuf, rmreq, rmidx, rmbg⟩ :=
              readMessageStep_ok_invariants sst F.2 m sst' pst' hrd
            refine ⟨?_, ?_, ?_⟩
            · rw [ihbuf, rmbuf, hFbuf]
            · rw [← hre, List.append_assoc, ihreq, rmreq, hF1]
            · intro hb
              exact ihbg (Nat.le_trans rmbg (hFbg hb))
    · simp only [dlGo] at h
      rw [if_neg hd] at h
      simp only [Option.some.injEq, Prod.mk.injEq] at h
      obtain ⟨h1, h2, h3, h4⟩ := h
      subst h1
      subst h4
      exact ⟨rfl, by simp, fun hb => hb⟩

theorem attemptDownload_buf_length (w : PieceOfWork) (sst : PeerSessionState)
    (msgs : List PeerMessage) (pstF : PieceState) (sstF : PeerSessionState)
    (msgsF : List PeerMessage) (reqs : List (Nat × Nat))
    (h : attemptDownload w sst msgs = some (pstF, sstF, msgsF, reqs)) :
    pstF.buf.length = w.length := by
  have hp := (dlGo_some_props (msgs.length + 1) w sst
    (PieceState.new w.idx w.length) msgs pstF sstF msgsF reqs h).1
  simpa [PieceState.new] using hp

theorem mem_append_singleton {α : Type} (x w : α) (q : List α)
    (h : x ∈ q ++ [w]) : x ∈ w :: q := by
  rcases List.mem_append.mp h with hq | hw
  · exact List.mem_cons_of_mem _ hq
  · simp at hw
    simp [hw]

theorem sdGo_results_sound : ∀ (fuel : Nat) (sst : PeerSessionState)
    (queue : List PieceOfWork) (msgs : List PeerMessage) (r : WorkResult),
    r ∈ (sdGo fuel sst queue msgs).1 →
    ∃ w, w ∈ queue ∧ r.idx = w.idx ∧ sha1 r.bytes = w.hash ∧
      r.bytes.length = w.length := by
  intro fuel
  induction fuel with
  | zero => intro sst queue msgs r hr; simp [sdGo] at hr
  | succ g ih =>
    intro sst queue msgs r hr
    cases queue with
    | nil => simp [sdGo] at hr
    | cons w q =>
      simp only [sdGo] at hr
      cases hhp : has_piece sst.bitfield w.idx with
      | none => rw [hhp] at hr; simp at hr
      | some b =>
        rw [hhp] at hr
        cases b with
        | false =>
          simp only at hr
          obtain ⟨w', hw', hrest⟩ := ih sst (q ++ [w]) msgs r hr
          exact ⟨w', mem_append_singleton w' w q hw', hrest⟩
        | true =>
          simp only at hr
          cases had : attemptDownload w sst msgs with
          | none => rw [had] at hr; simp at hr
          | some quad =>
            obtain ⟨pF, sF, mF, rF⟩ := quad
            rw [had] at hr
            simp only at hr
            by_cases hv : w.verify_buf pF.buf = true
            · rw [if_pos hv] at hr
              simp only at hr
              rcases List.mem_cons.mp hr with hhead | htail
              · refine ⟨w, List.mem_cons_self w q, ?_, ?_, ?_⟩
                · rw [hhead]
                · rw [hhead]
                  have hbeq : w.hash = sha1 pF.buf := by
                    have hv' := hv
                    unfold PieceOfWork.verify_buf at hv'
                    exact beq_iff_eq.mp hv'
                  exact hbeq.symm
                · rw [hhead]
                  exact attemptDownload_buf_length w sst msgs pF sF mF rF had
              · obtain ⟨w', hw', hrest⟩ := ih sF q mF r htail
                exact ⟨w', List.mem_cons_of_mem _ hw', hrest⟩
            · rw [if_neg hv] at hr
              obtain ⟨w', hw', hrest⟩ := ih sF (q ++ [w]) mF r hr
              exact ⟨w', mem_append_singleton w' w q hw', hrest⟩

/-! ## Claim theorems -/

/-- C2, counterexample: the claim says `verify_buf` returns `true` only
when the buffer also has the descriptor's length.  For the descriptor
`{idx 0, hash = SHA1"", length 1}`, `verify_buf` accepts the empty
buffer although its length 0 differs from the declared length 1: the
stated equivalence is false. -/
theorem c2_counterexample :
    PieceOfWork.verify_buf
      { idx := 0,
        hash := [218, 57, 163, 238, 94, 107, 75, 13, 50, 85, 191, 239,
          149, 96, 24, 144, 175, 216, 7, 9],
        length := 1 } [] = true ∧
    ¬ (sha1 [] =
        [218, 57, 163, 238, 94, 107, 75, 13, 50, 85, 191, 239,
          149, 96, 24, 144, 175, 216, 7, 9] ∧
      ([] : List Nat).length = 1) := by
  constructor
  · decide
  · intro hcl
    exact absurd hcl.2 (by decide)

/-- C2, amended: `verify_buf(buf)` returns `true` if and only if
`SHA1(buf)` equals the expected hash; the buffer length is not checked
by `verify_buf`. -/
theorem c2_verify_checks_hash_only (w : PieceOfWork) (buf : List Nat) :
    w.verify_buf buf = true ↔ sha1 buf = w.hash := by
  unfold PieceOfWork.verify_buf
  rw [beq_iff_eq]
  exact eq_comm

/-- C2, amended, witness at a concrete input: the descriptor whose hash
is SHA-1 of the single zero byte accepts exactly that buffer. -/
theorem c2_verify_checks_hash_only_witness :
    PieceOfWork.verify_buf
      { idx := 0,
        hash := [91, 169, 60, 157, 176, 207, 249, 63, 82, 181, 33, 215,
          66, 14, 67, 246, 237, 162, 120, 79],
        length := 1 } [0] = true :=
  (c2_verify_checks_hash_only
    { idx := 0,
      hash := [91, 169, 60, 157, 176, 207, 249, 63, 82, 181, 33, 215,
        66, 14, 67, 246, 237, 162, 120, 79],
      length := 1 } [0]).mpr (by decide)

/-- C4: the claim says `has_piece` on an out-of-range index returns
`false` without panicking.  The code indexes the slice unchecked, so it
panics (modelled as `none`): on the empty bitfield at index 0 (where
`0 / 8 = 0 ≥ 0 = len`) and on a one-byte bitfield at index 8. -/
theorem c4_has_piece_out_of_range_panics :
    has_piece ([] : List Nat) 0 = none ∧ has_piece [255] 8 = none ∧
    has_piece ([] : List Nat) 0 ≠ some false := by
  decide

/-- C5: the claim says `unset_piece i` changes only bit `7 - i % 8` of
byte `i / 8`.  The code masks with `0 << (7 - i % 8)`, which is zero, so
the whole byte is cleared: on buffer `[0xC0]` (bits 0 and 1 set),
clearing bit 0 also clears bit 1. -/
theorem c5_unset_piece_clears_whole_byte :
    has_piece [192] 1 = some true ∧
    unset_piece [192] 0 = some [0] ∧
    has_piece [0] 1 = some false := by
  decide

/-- C10: the claim says the `peermessage.rs` decoder consumes a frame as
soon as `4 + L` bytes are buffered.  The decoder uses a strict `>`
comparison, so the 17-byte buffer holding exactly one complete
`Request(12, 333, 4)` frame — the module's own unit test input, produced
by its encoder — is deferred (`Ok(None)`) instead of decoded. -/
theorem c10_decoder_defers_exact_frame :
    peermessage.encode (PeerMessage.Request 12 333 4) =
      [0, 0, 0, 13, 6, 0, 0, 0, 12, 0, 0, 1, 77, 0, 0, 0, 4] ∧
    ([0, 0, 0, 13, 6, 0, 0, 0, 12, 0, 0, 1, 77, 0, 0, 0, 4] : List Nat).length =
      4 + fromBE32 [0, 0, 0, 13] ∧
    peermessage.decode [0, 0, 0, 13, 6, 0, 0, 0, 12, 0, 0, 1, 77, 0, 0, 0, 4] =
      Except.ok none ∧
    message.decode [0, 0, 0, 13, 6, 0, 0, 0, 12, 0, 0, 1, 77, 0, 0, 0, 4] =
      Except.ok (some (PeerMessage.Request 12 333 4, [])) :=
  ⟨rfl, rfl, rfl, rfl⟩

theorem take_toBE32_full (n : Nat) : (toBE32 n).take 4 = toBE32 n := by
  rw [← toBE32_length n]
  exact List.take_length _

theorem drop_toBE32_full (n : Nat) : (toBE32 n).drop 4 = [] := by
  rw [← toBE32_length n]
  exact List.drop_length _

theorem drop8_append (t1 t2 t3 : List Nat) (h1 : t1.length = 4)
    (h2 : t2.length = 4) : (t1 ++ (t2 ++ t3)).drop 8 = t3 := by
  rw [show (8 : Nat) = 4 + 4 from rfl, ← List.drop_drop,
    List.drop_left' h1, List.drop_left' h2]

theorem drop12_append (t1 t2 t3 : List Nat) (h1 : t1.length = 4)
    (h2 : t2.length = 4) (h3 : t3.length = 4) :
    (t1 ++ (t2 ++ t3)).drop 12 = [] := by
  rw [show (12 : Nat) = 4 + 8 from rfl, ← List.drop_drop, List.drop_left' h1,
    show (8 : Nat) = 4 + 4 from rfl, ← List.drop_drop, List.drop_left' h2, ← h3]
  exact List.drop_length _

/-- The `message.rs` decoder after the length prefix has been accepted:
the frame body is handed to the shared payload dispatch. -/
theorem message_decode_frame (L : Nat) (rest : List Nat) (hL : L < 2 ^ 32)
    (hlen : rest.length = L) (hL0 : L ≠ 0) :
    message.decode (toBE32 L ++ rest) = message.decodeBody L rest := by
  have hsrc : (toBE32 L ++ rest).length = 4 + L := by
    simp [toBE32_length, hlen]
  simp only [message.decode]
  rw [List.take_left' (toBE32_length L), fromBE32_toBE32, Nat.mod_eq_of_lt hL]
  rw [if_neg (by omega), if_pos (by omega), if_neg hL0]
  rw [List.drop_left' (toBE32_length L)]

theorem decodeBody_id0 (L : Nat) (r : List Nat) :
    message.decodeBody L (0 :: r) = Except.ok (some (PeerMessage.Choke, r)) := rfl

theorem decodeBody_id4 (L : Nat) (r : List Nat) :
    message.decodeBody L (4 :: r) =
      Except.ok (some (PeerMessage.Have (fromBE32 (r.take 4)), r.drop 4)) := rfl

theorem decodeBody_id5 (L : Nat) (r : List Nat) :
    message.decodeBody L (5 :: r) =
      Except.ok (some (PeerMessage.Bitfield (r.take (L - 1)), r.drop (L - 1))) := rfl

theorem decodeBody_id6 (L : Nat) (r : List Nat) :
    message.decodeBody L (6 :: r) =
      Except.ok (some (PeerMessage.Request (fromBE32 (r.take 4))
        (fromBE32 ((r.drop 4).take 4)) (fromBE32 ((r.drop 8).take 4)),
        r.drop 12)) := rfl

theorem decodeBody_id7 (L : Nat) (r : List Nat) :
    message.decodeBody L (7 :: r) =
      Except.ok (some (PeerMessage.Piece (fromBE32 (r.take 4))
        (fromBE32 ((r.drop 4).take 4)) ((r.drop 8).take (L - 9)),
        (r.drop 8).drop (L - 9))) := rfl

theorem decodeBody_id8 (L : Nat) (r : List Nat) :
    message.decodeBody L (8 :: r) =
      Except.ok (some (PeerMessage.Cancel (fromBE32 (r.take 4))
        (fromBE32 ((r.drop 4).take 4)) (fromBE32 ((r.drop 8).take 4)),
        r.drop 12)) := rfl

/-- The well-formedness the Rust `u32` field types and `as u32` casts
impose on a message: every numeric field and encoded length fits in 32
bits.  (`Vec` payloads whose encoded length overflows a `u32` cannot
round-trip; the Rust types make the numeric bounds implicit.) -/
def PeerMessage.wf : PeerMessage → Prop
  | .KeepAlive | .Choke | .Unchoke | .Interested | .NotInterested => True
  | .Have i => i < 2 ^ 32
  | .Bitfield p => p.length + 1 < 2 ^ 32
  | .Request i b l => i < 2 ^ 32 ∧ b < 2 ^ 32 ∧ l < 2 ^ 32
  | .Piece i o d => i < 2 ^ 32 ∧ o < 2 ^ 32 ∧ d.length + 9 < 2 ^ 32
  | .Cancel i b l => i < 2 ^ 32 ∧ b < 2 ^ 32 ∧ l < 2 ^ 32

/-- C8: every handshake built by `Handshake::new` (protocol name
`BitTorrent protocol`, zero reserved bytes) from a 20-byte info hash and
a 20-byte peer id encodes to exactly 68 bytes, and decoding that buffer
yields the handshake back with nothing left over. -/
theorem c8_handshake_roundtrip (ihash pid : List Nat)
    (hih : ihash.length = 20) (hpid : pid.length = 20) :
    (HandshakeCodec.encode (Handshake.new ihash pid)).length = 68 ∧
    HandshakeCodec.decode (HandshakeCodec.encode (Handshake.new ihash pid)) =
      Except.ok (some (Handshake.new ihash pid, [])) := by
  have hpn : PROTOCOL_NAME.length = 19 := rfl
  have hr8 : (List.replicate 8 (0 : Nat)).length = 8 := rfl
  have henc : HandshakeCodec.encode (Handshake.new ihash pid) =
      19 :: (PROTOCOL_NAME ++ (List.replicate 8 0 ++ (ihash ++ pid))) := by
    simp [HandshakeCodec.encode, Handshake.new, hpn, List.append_assoc]
  constructor
  · rw [henc]
    simp [hpn, hih, hpid]
  · rw [henc]
    simp only [HandshakeCodec.decode]
    rw [if_neg (by rw [hpn]; omega)]
    rw [if_pos (by simp [hpn, hih, hpid])]
    rw [List.take_left' hpn, List.drop_left' hpn]
    rw [List.take_left' hr8, List.drop_left' hr8]
    rw [List.take_left' hih, List.drop_left' hih]
    simp only [← hpid, List.take_length, List.drop_length]
    rfl

/-- C8, witness: the round-trip at the concrete info hash `0x11 × 20`
and peer id `Daniel Rivas12345678` (the source's own unit-test data). -/
theorem c8_handshake_roundtrip_witness :
    (HandshakeCodec.encode (Handshake.new (List.replicate 20 17)
        [68, 97, 110, 105, 101, 108, 32, 82, 105, 118, 97, 115, 49, 50,
          51, 52, 53, 54, 55, 56])).length = 68 ∧
    HandshakeCodec.decode (HandshakeCodec.encode (Handshake.new
        (List.replicate 20 17)
        [68, 97, 110, 105, 101, 108, 32, 82, 105, 118, 97, 115, 49, 50,
          51, 52, 53, 54, 55, 56])) =
      Except.ok (some (Handshake.new (List.replicate 20 17)
        [68, 97, 110, 105, 101, 108, 32, 82, 105, 118, 97, 115, 49, 50,
          51, 52, 53, 54, 55, 56], [])) :=
  c8_handshake_roundtrip (List.replicate 20 17)
    [68, 97, 110, 105, 101, 108, 32, 82, 105, 118, 97, 115, 49, 50,
      51, 52, 53, 54, 55, 56] (by decide) (by decide)

/-- C9: for the `message.rs` codec, decoding the encoding of any message
variant yields the message back with an empty remainder, and the encoded
length is the four-byte prefix plus one id byte plus the payload length
(just the prefix for `KeepAlive`).  Well-formedness packages the bounds
the Rust `u32` types impose. -/
theorem c9_message_roundtrip (m : PeerMessage) (hm : m.wf) :
    message.decode (message.encode m) = Except.ok (some (m, [])) ∧
    (m = PeerMessage.KeepAlive → (message.encode m).length = 4) ∧
    (m ≠ PeerMessage.KeepAlive →
      (message.encode m).length = 4 + 1 + m.payload_len) := by
  cases m with
  | KeepAlive => exact ⟨rfl, fun _ => rfl, fun h => absurd rfl h⟩
  | Choke => exact ⟨rfl, fun h => absurd h (by simp), fun _ => rfl⟩
  | Unchoke => exact ⟨rfl, fun h => absurd h (by simp), fun _ => rfl⟩
  | Interested => exact ⟨rfl, fun h => absurd h (by simp), fun _ => rfl⟩
  | NotInterested => exact ⟨rfl, fun h => absurd h (by simp), fun _ => rfl⟩
  | Have p =>
    have hp : p < 2 ^ 32 := hm
    refine ⟨?_, fun h => absurd h (by simp), fun _ => ?_⟩
    · show message.decode (toBE32 (1 + 4) ++ [4] ++ toBE32 p) = _
      simp only [List.append_assoc, List.cons_append, List.nil_append]
      rw [message_decode_frame (1 + 4) (4 :: toBE32 p) (by omega)
        (by simp [toBE32_length]) (by omega)]
      rw [decodeBody_id4, take_toBE32_full, drop_toBE32_full, fromBE32_toBE32,
        Nat.mod_eq_of_lt hp]
    · show (toBE32 (1 + 4) ++ [4] ++ toBE32 p).length = _
      simp only [List.length_append, toBE32_length, List.length_singleton,
        PeerMessage.payload_len]
  | Bitfield p =>
    have hp : p.length + 1 < 2 ^ 32 := hm
    refine ⟨?_, fun h => absurd h (by simp), fun _ => ?_⟩
    · show message.decode (toBE32 (1 + p.length) ++ [5] ++ p) = _
      simp only [List.append_assoc, List.cons_append, List.nil_append]
      rw [message_decode_frame (1 + p.length) (5 :: p) (by omega)
        (by simp only [List.length_cons]; omega) (by omega)]
      rw [decodeBody_id5]
      have hL1 : 1 + p.length - 1 = p.length := by omega
      rw [hL1, List.take_length, List.drop_length]
    · show (toBE32 (1 + p.length) ++ [5] ++ p).length = _
      simp only [List.length_append, toBE32_length, List.length_singleton,
        PeerMessage.payload_len]
  | Request i b l =>
    obtain ⟨h1, h2, h3⟩ := hm
    refine ⟨?_, fun h => absurd h (by simp), fun _ => ?_⟩
    · show message.decode
        (toBE32 (1 + 4 + 4 + 4) ++ [6] ++ toBE32 i ++ toBE32 b ++ toBE32 l) = _
      simp only [List.append_assoc, List.cons_append, List.nil_append]
      rw [message_decode_frame (1 + 4 + 4 + 4)
        (6 :: (toBE32 i ++ (toBE32 b ++ toBE32 l))) (by omega)
        (by simp [toBE32_length]) (by omega)]
      rw [decodeBody_id6]
      rw [List.take_left' (toBE32_length i), List.drop_left' (toBE32_length i),
        List.take_left' (toBE32_length b),
        drop8_append _ _ _ (toBE32_length i) (toBE32_length b),
        take_toBE32_full,
        drop12_append _ _ _ (toBE32_length i) (toBE32_length b) (toBE32_length l)]
      rw [fromBE32_toBE32, fromBE32_toBE32, fromBE32_toBE32,
        Nat.mod_eq_of_lt h1, Nat.mod_eq_of_lt h2, Nat.mod_eq_of_lt h3]
    · show (toBE32 (1 + 4 + 4 + 4) ++ [6] ++ toBE32 i ++ toBE32 b ++
        toBE32 l).length = _
      simp only [List.length_append, toBE32_length, List.length_singleton,
        PeerMessage.payload_len]
  | Piece i o d =>
    obtain ⟨h1, h2, h3⟩ := hm
    refine ⟨?_, fun h => absurd h (by simp), fun _ => ?_⟩
    · show message.decode
        (toBE32 (1 + 4 + 4 + d.length) ++ [7] ++ toBE32 i ++ toBE32 o ++ d) = _
      simp only [List.append_assoc, List.cons_append, List.nil_append]
      rw [message_decode_frame (1 + 4 + 4 + d.length)
        (7 :: (toBE32 i ++ (toBE32 o ++ d))) (by omega)
        (by simp only [List.length_cons, List.length_append, toBE32_length]
            omega)
        (by omega)]
      rw [decodeBody_id7]
      rw [List.take_left' (toBE32_length i), List.drop_left' (toBE32_length i),
        List.take_left' (toBE32_length o),
        drop8_append _ _ _ (toBE32_length i) (toBE32_length o)]
      have hL9 : 1 + 4 + 4 + d.length - 9 = d.length := by omega
      rw [hL9, List.take_length, List.drop_length]
      rw [fromBE32_toBE32, fromBE32_toBE32,
        Nat.mod_eq_of_lt h1, Nat.mod_eq_of_lt h2]
    · show (toBE32 (1 + 4 + 4 + d.length) ++ [7] ++ toBE32 i ++ toBE32 o ++
        d).length = _
      simp only [List.length_append, toBE32_length, List.length_singleton,
        PeerMessage.payload_len]
      omega
  | Cancel i b l =>
    obtain ⟨h1, h2, h3⟩ := hm
    refine ⟨?_, fun h => absurd h (by simp), fun _ => ?_⟩
    · show message.decode
        (toBE32 (1 + 4 + 4 + 4) ++ [8] ++ toBE32 i ++ toBE32 b ++ toBE32 l) = _
      simp only [List.append_assoc, List.cons_append, List.nil_append]
      rw [message_decode_frame (1 + 4 + 4 + 4)
        (8 :: (toBE32 i ++ (toBE32 b ++ toBE32 l))) (by omega)
        (by simp [toBE32_length]) (by omega)]
      rw [decodeBody_id8]
      rw [List.take_left' (toBE32_length i), List.drop_left' (toBE32_length i),
        List.take_left' (toBE32_length b),
        drop8_append _ _ _ (toBE32_length i) (toBE32_length b),
        take_toBE32_full,
        drop12_append _ _ _ (toBE32_length i) (toBE32_length b) (toBE32_length l)]
      rw [fromBE32_toBE32, fromBE32_toBE32, fromBE32_toBE32,
        Nat.mod_eq_of_lt h1, Nat.mod_eq_of_lt h2, Nat.mod_eq_of_lt h3]
    · show (toBE32 (1 + 4 + 4 + 4) ++ [8] ++ toBE32 i ++ toBE32 b ++
        toBE32 l).length = _
      simp only [List.length_append, toBE32_length, List.length_singleton,
        PeerMessage.payload_len]

theorem splice_get_in (buf data : List Nat) (offset j : Nat)
    (hoff : offset ≤ buf.length) (hj : j < data.length) :
    (buf.take offset ++ data ++ buf.drop (offset + data.length)).get?
      (offset + j) = data.get? j := by
  have hto : (buf.take offset).length = offset := by
    simp only [List.length_take]
    omega
  rw [List.append_assoc]
  rw [List.get?_append_right (by rw [hto]; omega)]
  rw [hto, Nat.add_sub_cancel_left]
  exact List.get?_append hj

theorem splice_get_outside (buf data : List Nat) (offset j : Nat)
    (hoff : offset + data.length ≤ buf.length)
    (hj : j < offset ∨ offset + data.length ≤ j) :
    (buf.take offset ++ data ++ buf.drop (offset + data.length)).get? j =
      buf.get? j := by
  have hto : (buf.take offset).length = offset := by
    simp only [List.length_take]
    omega
  rw [List.append_assoc]
  rcases hj with hj | hj
  · rw [List.get?_append (by rw [hto]; omega)]
    exact List.get?_take hj
  · rw [List.get?_append_right (by rw [hto]; omega), hto]
    rw [List.get?_append_right (by omega)]
    rw [List.get?_drop]
    refine congrArg _ ?_
    omega

/-- C7: when `read_message` handles `Piece(idx, begin, data)`: an index
mismatch or a window reaching past the assembly buffer is rejected with
an error before any mutation (the state carried back is the input
state); otherwise the data is written exactly into
`buf[begin .. begin + data.len]`, every other position is unchanged, and
the buffer length is preserved — no write lands outside `[0, length)`.
(The normal return is `ok`; when the backlog is already zero the
`backlog -= 1` underflow panic ends the session, with the same buffer
contents.) -/
theorem c7_piece_dispatch (sst : PeerSessionState) (pst : PieceState)
    (idx offset : Nat) (data : List Nat) :
    ((idx ≠ pst.index ∨ pst.buf.length < offset ∨
        pst.buf.length < offset + data.length) →
      ∃ reason, readMessageStep sst pst (PeerMessage.Piece idx offset data) =
        RmOut.err reason sst pst) ∧
    (idx = pst.index → offset + data.length ≤ pst.buf.length →
      ∃ pstW,
        (readMessageStep sst pst (PeerMessage.Piece idx offset data) =
            RmOut.ok sst pstW ∨
          readMessageStep sst pst (PeerMessage.Piece idx offset data) =
            RmOut.panicked sst pstW) ∧
        pstW.buf =
          pst.buf.take offset ++ data ++ pst.buf.drop (offset + data.length) ∧
        pstW.buf.length = pst.buf.length ∧
        pstW.downloaded = pst.downloaded + data.length ∧
        (∀ j, j < data.length → pstW.buf.get? (offset + j) = data.get? j) ∧
        (∀ j, j < offset ∨ offset + data.length ≤ j →
          pstW.buf.get? j = pst.buf.get? j)) := by
  constructor
  · intro hcond
    simp only [readMessageStep]
    by_cases h1 : idx ≠ pst.index
    · rw [if_pos h1]
      exact ⟨_, rfl⟩
    · rw [if_neg h1]
      by_cases h2 : offset > pst.buf.length
      · rw [if_pos h2]
        exact ⟨_, rfl⟩
      · rw [if_neg h2]
        have h3 : offset + data.length > pst.buf.length := by
          rcases hcond with hc | hc | hc
          · exact absurd hc h1
          · omega
          · omega
        rw [if_pos h3]
        exact ⟨_, rfl⟩
  · intro hidx hlen
    simp only [readMessageStep]
    rw [if_neg (fun hn => hn hidx)]
    rw [if_neg (by omega : ¬ offset > pst.buf.length)]
    rw [if_neg (by omega : ¬ offset + data.length > pst.buf.length)]
    by_cases hb : pst.backlog = 0
    · rw [if_pos hb]
      exact ⟨_, Or.inr rfl, rfl, splice_length _ _ _ hlen, rfl,
        fun j hj => splice_get_in pst.buf data offset j (by omega) hj,
        fun j hj => splice_get_outside pst.buf data offset j hlen hj⟩
    · rw [if_neg hb]
      exact ⟨_, Or.inl rfl, rfl, splice_length _ _ _ hlen, rfl,
        fun j hj => splice_get_in pst.buf data offset j (by omega) hj,
        fun j hj => splice_get_outside pst.buf data offset j hlen hj⟩

/-- C7, witness: `Piece(0, 1, [5, 5])` against a four-byte assembly
buffer `[9, 9, 9, 9]` with backlog 1 writes exactly the window. -/
theorem c7_piece_dispatch_witness :
    (0 : Nat) = (⟨0, 0, 0, 1, [9, 9, 9, 9]⟩ : PieceState).index ∧
    1 + [5, 5].length ≤ (⟨0, 0, 0, 1, [9, 9, 9, 9]⟩ : PieceState).buf.length ∧
    ∃ pstW,
      (readMessageStep PeerSessionState.default ⟨0, 0, 0, 1, [9, 9, 9, 9]⟩
          (PeerMessage.Piece 0 1 [5, 5]) = RmOut.ok PeerSessionState.default pstW ∨
        readMessageStep PeerSessionState.default ⟨0, 0, 0, 1, [9, 9, 9, 9]⟩
          (PeerMessage.Piece 0 1 [5, 5]) =
          RmOut.panicked PeerSessionState.default pstW) ∧
      pstW.buf = [9, 9, 9, 9].take 1 ++ [5, 5] ++ [9, 9, 9, 9].drop (1 + [5, 5].length) ∧
      pstW.buf.length = ([9, 9, 9, 9] : List Nat).length ∧
      pstW.downloaded = 0 + [5, 5].length ∧
      (∀ j, j < [5, 5].length → pstW.buf.get? (1 + j) = [5, 5].get? j) ∧
      (∀ j, j < 1 ∨ 1 + [5, 5].length ≤ j →
        pstW.buf.get? j = ([9, 9, 9, 9] : List Nat).get? j) :=
  ⟨rfl, by decide,
    (c7_piece_dispatch PeerSessionState.default ⟨0, 0, 0, 1, [9, 9, 9, 9]⟩
      0 1 [5, 5]).2 rfl (by decide)⟩

/-- C1: along any execution of the `start_download` loop — any queue
contents, any incoming traffic — every `WorkResult` sent on the result
sink corresponds to a descriptor of the queue with matching index, its
bytes hash to that descriptor's expected SHA-1 (enforced by the
`verify_buf` gate), and its byte count equals that descriptor's length
(the assembly buffer is created at the descriptor's length and every
accepted `Piece` write preserves it). -/
theorem c1_result_sink_integrity (fuel : Nat) (sst : PeerSessionState)
    (queue : List PieceOfWork) (msgs : List PeerMessage) (r : WorkResult)
    (hr : r ∈ (sdGo fuel sst queue msgs).1) :
    ∃ w, w ∈ queue ∧ r.idx = w.idx ∧ sha1 r.bytes = w.hash ∧
      r.bytes.length = w.length :=
  sdGo_results_sound fuel sst queue msgs r hr

/-- C1, witness: a one-piece run (descriptor hash = SHA-1 of the single
zero byte) emits exactly `{idx 0, bytes [0]}`, and the invariant holds
for it. -/
theorem c1_result_sink_integrity_witness :
    (({ idx := 0, bytes := [0] } : WorkResult) ∈
      (sdGo 2 ⟨0, false, false, 0, 0, 0, [], [128]⟩
        [⟨0, [91, 169, 60, 157, 176, 207, 249, 63, 82, 181, 33, 215, 66,
          14, 67, 246, 237, 162, 120, 79], 1⟩]
        [PeerMessage.Piece 0 0 [0]]).1) ∧
    ∃ w, w ∈ [(⟨0, [91, 169, 60, 157, 176, 207, 249, 63, 82, 181, 33,
        215, 66, 14, 67, 246, 237, 162, 120, 79], 1⟩ : PieceOfWork)] ∧
      ({ idx := 0, bytes := [0] } : WorkResult).idx = w.idx ∧
      sha1 ({ idx := 0, bytes := [0] } : WorkResult).bytes = w.hash ∧
      ({ idx := 0, bytes := [0] } : WorkResult).bytes.length = w.length :=
  ⟨by decide,
    c1_result_sink_integrity 2 ⟨0, false, false, 0, 0, 0, [], [128]⟩
      [⟨0, [91, 169, 60, 157, 176, 207, 249, 63, 82, 181, 33, 215, 66,
        14, 67, 246, 237, 162, 120, 79], 1⟩]
      [PeerMessage.Piece 0 0 [0]] { idx := 0, bytes := [0] } (by decide)⟩

/-- C3: when the popped descriptor's downloaded buffer fails
`verify_buf`, the loop iteration pushes the descriptor back to the tail
of the work queue, sends nothing on the result sink, and continues with
the next iteration: the run equals the run that starts after the
requeue. -/
theorem c3_requeue_on_integrity_failure (fuel : Nat) (sst : PeerSessionState)
    (q : List PieceOfWork) (msgs : List PeerMessage) (w : PieceOfWork)
    (pstF : PieceState) (sst' : PeerSessionState) (msgs' : List PeerMessage)
    (reqs : List (Nat × Nat))
    (hbf : has_piece sst.bitfield w.idx = some true)
    (hdl : attemptDownload w sst msgs = some (pstF, sst', msgs', reqs))
    (hv : w.verify_buf pstF.buf = false) :
    sdGo (fuel + 1) sst (w :: q) msgs = sdGo fuel sst' (q ++ [w]) msgs' := by
  simp only [sdGo]
  rw [hbf]
  simp only
  rw [hdl]
  simp only
  rw [if_neg (by simp [hv])]

/-- C3, witness: a descriptor with an unsatisfiable hash is requeued at
the tail and the loop continues. -/
theorem c3_requeue_on_integrity_failure_witness :
    sdGo 1 ⟨0, false, false, 0, 0, 0, [], [128]⟩
      [⟨0, List.replicate 20 0, 1⟩] [PeerMessage.Piece 0 0 [1]] =
    sdGo 0 ⟨0, false, false, 0, 0, 0, [], [128]⟩
      ([] ++ [⟨0, List.replicate 20 0, 1⟩]) [] :=
  c3_requeue_on_integrity_failure 0 ⟨0, false, false, 0, 0, 0, [], [128]⟩
    [] [PeerMessage.Piece 0 0 [1]] ⟨0, List.replicate 20 0, 1⟩
    ⟨0, 1, 1, 0, [1]⟩ ⟨0, false, false, 0, 0, 0, [], [128]⟩ [] [(0, 1)]
    (by decide) (by decide) (by decide)

theorem blk_eq_min (len r : Nat) :
    (if len - r < MAX_BLOCK_SIZE then len - r else MAX_BLOCK_SIZE) =
      min MAX_BLOCK_SIZE (len - r) := by
  by_cases hc : len - r < MAX_BLOCK_SIZE
  · rw [if_pos hc]
    omega
  · rw [if_neg hc]
    omega

theorem schedFrom_get : ∀ (j len k : Nat),
    (schedFrom len (k * MAX_BLOCK_SIZE)).get? j =
      if (k + j) * MAX_BLOCK_SIZE < len then
        some ((k + j) * MAX_BLOCK_SIZE,
          min MAX_BLOCK_SIZE (len - (k + j) * MAX_BLOCK_SIZE))
      else none := by
  intro j
  induction j with
  | zero =>
    intro len k
    simp only [Nat.add_zero]
    by_cases hr : k * MAX_BLOCK_SIZE < len
    · rw [schedFrom_eq_cons len _ hr, blk_eq_min, if_pos hr]
      rfl
    · rw [schedFrom_stop len _ hr, if_neg hr]
      rfl
  | succ n ihn =>
    intro len k
    by_cases hr : k * MAX_BLOCK_SIZE < len
    · rw [schedFrom_eq_cons len _ hr]
      show (schedFrom len _).get? n = _
      by_cases hfull : len - k * MAX_BLOCK_SIZE < MAX_BLOCK_SIZE
      · rw [if_pos hfull,
          show k * MAX_BLOCK_SIZE + (len - k * MAX_BLOCK_SIZE) = len from by omega]
        rw [schedFrom_stop len len (by omega)]
        rw [if_neg (by simp only [MAX_BLOCK_SIZE_eq] at hfull hr ⊢; omega)]
        rfl
      · rw [if_neg hfull,
          show k * MAX_BLOCK_SIZE + MAX_BLOCK_SIZE = (k + 1) * MAX_BLOCK_SIZE
            from by ring]
        rw [ihn len (k + 1)]
        rw [show k + 1 + n = k + (n + 1) from by omega]
    · rw [schedFrom_stop len _ hr]
      rw [if_neg (by simp only [MAX_BLOCK_SIZE_eq] at hr ⊢; omega)]
      rfl

/-- C6: the request stream of `attempt_download`.  (1) Along any
execution the `(begin, size)` pairs sent, in order, are a prefix of the
canonical schedule; (2) every schedule entry `k` is
`(k·16384, min(16384, len − k·16384))` — consecutive offsets from zero;
(3) the concrete 40,000-byte schedule; (4) the request loop keeps
`backlog ≤ 5`, incrementing it once per request sent; (5) message
dispatch never increases the backlog; (6) hence along any execution the
backlog stays at most 5. -/
theorem c6_request_schedule :
    (∀ (fuel : Nat) (w : PieceOfWork) (sst : PeerSessionState)
      (msgs : List PeerMessage) (pstF : PieceState)
      (sstF : PeerSessionState) (msgsF : List PeerMessage)
      (reqs : List (Nat × Nat)),
      dlGo fuel w sst (PieceState.new w.idx w.length) msgs =
        some (pstF, sstF, msgsF, reqs) →
      ∃ t, reqs ++ t = specSchedule w.length) ∧
    (∀ (len k : Nat) (e : Nat × Nat), (specSchedule len).get? k = some e →
      e = (k * MAX_BLOCK_SIZE, min MAX_BLOCK_SIZE (len - k * MAX_BLOCK_SIZE))) ∧
    specSchedule 40000 = [(0, 16384), (16384, 16384), (32768, 7232)] ∧
    (∀ (len : Nat) (pst : PieceState), pst.backlog ≤ MAX_BACKLOG →
      (fillRequests len pst).2.backlog ≤ MAX_BACKLOG ∧
      (fillRequests len pst).2.backlog =
        pst.backlog + (fillRequests len pst).1.length) ∧
    (∀ (sst : PeerSessionState) (pst : PieceState) (m : PeerMessage)
      (sst' : PeerSessionState) (pst' : PieceState),
      readMessageStep sst pst m = RmOut.ok sst' pst' →
      pst'.backlog ≤ pst.backlog) ∧
    (∀ (fuel : Nat) (w : PieceOfWork) (sst : PeerSessionState)
      (pst : PieceState) (msgs : List PeerMessage) (pstF : PieceState)
      (sstF : PeerSessionState) (msgsF : List PeerMessage)
      (reqs : List (Nat × Nat)), pst.backlog ≤ MAX_BACKLOG →
      dlGo fuel w sst pst msgs = some (pstF, sstF, msgsF, reqs) →
      pstF.backlog ≤ MAX_BACKLOG) := by
  refine ⟨?_, ?_, by decide, ?_, ?_, ?_⟩
  · intro fuel w sst msgs pstF sstF msgsF reqs h
    have hreq := (dlGo_some_props fuel w sst
      (PieceState.new w.idx w.length) msgs pstF sstF msgsF reqs h).2.1
    refine ⟨schedFrom w.length pstF.requested, ?_⟩
    have h0 : (PieceState.new w.idx w.length).requested = 0 := rfl
    rw [hreq, h0, schedFrom_zero]
  · intro len k e he
    have h := schedFrom_get k len 0
    rw [Nat.zero_mul, Nat.zero_add] at h
    rw [← schedFrom_zero] at he
    rw [he] at h
    by_cases hk : k * MAX_BLOCK_SIZE < len
    · rw [if_pos hk] at h
      exact Option.some.inj h
    · rw [if_neg hk] at h
      cases h
  · intro len pst hb
    exact ⟨fillGo_backlog_le _ len pst hb, (fillGo_props _ len pst).2.1⟩
  · intro sst pst m sst' pst' h
    exact (readMessageStep_ok_invariants sst pst m sst' pst' h).2.2.2
  · intro fuel w sst pst msgs pstF sstF msgsF reqs hb h
    exact (dlGo_some_props fuel w sst pst msgs pstF sstF msgsF reqs h).2.2 hb

/-- C6, witness: a one-byte piece under an unchoked session sends the
single request `(0, 1)`, a prefix of the canonical schedule. -/
theorem c6_request_schedule_witness :
    ∃ t, [(0, 1)] ++ t = specSchedule 1 :=
  c6_request_schedule.1 2 ⟨0, [], 1⟩ ⟨0, false, false, 0, 0, 0, [], []⟩
    [PeerMessage.Piece 0 0 [0]] ⟨0, 1, 1, 0, [0]⟩
    ⟨0, false, false, 0, 0, 0, [], []⟩ [] [(0, 1)] (by decide)

/-- C9, witness: the concrete round-trip of `Request(12, 333, 4)` (the
source's own unit-test message), 17 bytes. -/
theorem c9_message_roundtrip_witness :
    message.decode (message.encode (PeerMessage.Request 12 333 4)) =
      Except.ok (some (PeerMessage.Request 12 333 4, [])) ∧
    (message.encode (PeerMessage.Request 12 333 4)).length = 4 + 1 + 12 :=
  ⟨(c9_message_roundtrip (PeerMessage.Request 12 333 4)
      ⟨by omega, by omega, by omega⟩).1,
   (c9_message_roundtrip (PeerMessage.Request 12 333 4)
      ⟨by omega, by omega, by omega⟩).2.2 (by simp)⟩
